import Mathlib

/-!
Shallow embedding of the content-extraction engine of
`web-page-content-extractor` (file `src/lib/extractor.ts`, here
`src/unnamed/part_003`).

The parsed HTML document is modelled as a tree of element and text nodes
(`Node`).  Cheerio's traversal primitives (`.text()`, `.find(sel)`,
`.next()`, `.children(sel)`, `.remove()`, `.attr(name)`) are modelled as
pure recursive functions on this tree; `.next()` skips text nodes in
cheerio, which is reproduced here by letting text nodes flow through the
sibling walk contributing nothing.  JavaScript strings are modelled as
Lean `String`s (lists of characters); `\s` in the regexes of the source is
modelled as the ASCII whitespace characters used by the extracted pages.
JavaScript floating-point score arithmetic is modelled with exact
rational numbers represented as integer numerator/denominator pairs.
-/

namespace Extractor

/-! ## Character and string utilities -/

/-- ASCII whitespace, the model of the `\s` regex class and of
`String.prototype.trim`. -/
def isWs (c : Char) : Bool :=
  c = ' ' || c = '\t' || c = '\n' || c = '\r'

/-- The `text.replace(/\s+/g, ' ')`: collapse every whitespace run to a single
space.  `prevWs` records whether the previous character belonged to a
whitespace run. -/
def collapseWsAux (prevWs : Bool) : List Char → List Char
  | [] => []
  | c :: cs =>
    if isWs c then
      if prevWs then collapseWsAux true cs else ' ' :: collapseWsAux true cs
    else c :: collapseWsAux false cs

/-- Remove leading whitespace (first half of `trim()`). -/
def trimLeftChars (l : List Char) : List Char :=
  l.dropWhile fun c => isWs c

/-- Remove trailing whitespace (second half of `trim()`). -/
def trimRightChars : List Char → List Char
  | [] => []
  | c :: cs =>
    let r := trimRightChars cs
    if r = [] && isWs c then [] else c :: r

/-- The `String.prototype.trim` on a character list. -/
def trimChars (l : List Char) : List Char :=
  trimRightChars (trimLeftChars l)

/-- The `String.prototype.trim`. -/
def strTrim (s : String) : String :=
  ⟨trimChars s.data⟩

/-- The `String.prototype.toLowerCase` (ASCII). -/
def lowerStr (s : String) : String :=
  ⟨s.data.map Char.toLower⟩

/-- Does the list start with the given pattern? -/
def startsWithChars : List Char → List Char → Bool
  | [], _ => true
  | _ :: _, [] => false
  | p :: ps, c :: cs => p = c && startsWithChars ps cs

/-- Does the pattern occur as a contiguous run somewhere in the list? -/
def hasInfixChars (pat : List Char) : List Char → Bool
  | [] => startsWithChars pat []
  | c :: cs => startsWithChars pat (c :: cs) || hasInfixChars pat cs

/-- The `s.includes(pat)` — substring containment. -/
def containsStr (s pat : String) : Bool :=
  hasInfixChars pat.data s.data

/-! ### The four marker-removal passes of `cleanText`

Each models one `replace(/pat/g, '')`: a left-to-right scan that, at every
position, removes the (non-overlapping) match if one starts there.  All
four patterns start with a literal `[`.  The scan is written with explicit
fuel so that it is structurally recursive; `fuel = length of the input`
is always sufficient because every step consumes at least one character. -/

/-- Case-insensitive match of a literal pattern (given lowercase) against
the front of the input; returns the rest after the match. -/
def stripCaseless : List Char → List Char → Option (List Char)
  | [], l => some l
  | _ :: _, [] => none
  | p :: ps, c :: cs => if c.toLower = p then stripCaseless ps cs else none

/-- Matcher for `/\[edit\]/gi`. -/
def editMatch : List Char → Option (List Char)
  | [] => none
  | c :: cs =>
    if c = '[' then stripCaseless ['e', 'd', 'i', 't', ']'] cs else none

/-- Matcher for `/\[citation needed\]/gi` (whitespace already collapsed). -/
def citationMatch : List Char → Option (List Char)
  | [] => none
  | c :: cs =>
    if c = '[' then
      stripCaseless
        ['c', 'i', 't', 'a', 't', 'i', 'o', 'n', ' ',
         'n', 'e', 'e', 'd', 'e', 'd', ']'] cs
    else none

/-- Matcher for `/\[note \d+\]/gi`. -/
def noteMatch : List Char → Option (List Char)
  | [] => none
  | c :: cs =>
    if c = '[' then
      match stripCaseless ['n', 'o', 't', 'e', ' '] cs with
      | none => none
      | some r =>
        let ds := r.takeWhile Char.isDigit
        match r.dropWhile Char.isDigit with
        | ']' :: r2 => if ds = [] then none else some r2
        | _ => none
    else none

/-- Matcher for `/\[\d+\]/g` — numeric reference markers. -/
def refMatch : List Char → Option (List Char)
  | [] => none
  | c :: cs =>
    if c = '[' then
      let ds := cs.takeWhile Char.isDigit
      match cs.dropWhile Char.isDigit with
      | ']' :: r2 => if ds = [] then none else some r2
      | _ => none
    else none

/-- Fueled global-replace-by-empty scan with matcher `m`. -/
def scrubF (m : List Char → Option (List Char)) : Nat → List Char → List Char
  | 0, l => l
  | _ + 1, [] => []
  | n + 1, c :: cs =>
    match m (c :: cs) with
    | some rest => scrubF m n rest
    | none => c :: scrubF m n cs

/-- Global removal of every match of `m`. -/
def scrub (m : List Char → Option (List Char)) (l : List Char) : List Char :=
  scrubF m l.length l

/-- The `cleanText` on a character list: collapse whitespace, strip the four
bracketed editorial-marker families (in source order), then trim. -/
def cleanChars (l : List Char) : List Char :=
  trimChars (scrub refMatch (scrub noteMatch (scrub citationMatch
    (scrub editMatch (collapseWsAux false l)))))

/-- The `cleanText` from the source: normalization applied to every extracted
string. -/
def cleanText (s : String) : String :=
  ⟨cleanChars s.data⟩

/-! ## The parsed document tree -/

/-- A node of the parsed HTML document: a text node or an element with a
tag name, an attribute list and a child list. -/
inductive Node where
  | text (s : String) : Node
  | elem (tag : String) (attrs : List (String × String)) (children : List Node) : Node

/-- First binding of an attribute name in an attribute list. -/
def attrLookup (name : String) : List (String × String) → Option String
  | [] => none
  | (k, v) :: rest => if k = name then some v else attrLookup name rest

/-- The `class` attribute of an attribute list, `''` when absent
(`$(el).attr('class') || ''`). -/
def classOfAttrs (a : List (String × String)) : String :=
  (attrLookup "class" a).getD ""

/-- The `id` attribute of an attribute list, `''` when absent. -/
def idOfAttrs (a : List (String × String)) : String :=
  (attrLookup "id" a).getD ""

/-- Tag name of a node; `''` for text nodes (`$el.prop('tagName') || ''`,
lowercased). -/
def tagOf : Node → String
  | .text _ => ""
  | .elem t _ _ => t

/-- Attribute list of a node. -/
def attrsOf : Node → List (String × String)
  | .text _ => []
  | .elem _ a _ => a

/-- The `$(el).attr(name)`. -/
def attrOf (name : String) (n : Node) : Option String :=
  attrLookup name (attrsOf n)

/-- The `$(el).attr('class') || ''`. -/
def classOf (n : Node) : String :=
  classOfAttrs (attrsOf n)

/-- The `$(el).attr('id') || ''`. -/
def idOf (n : Node) : String :=
  idOfAttrs (attrsOf n)

/-- Child list of a node. -/
def childrenOf : Node → List Node
  | .text _ => []
  | .elem _ _ cs => cs

mutual

/-- The `$el.text()`: concatenation of all descendant text. -/
def textOf : Node → String
  | .text s => s
  | .elem _ _ cs => textsOf cs

/-- The `textOf` over a node list. -/
def textsOf : List Node → String
  | [] => ""
  | n :: rest => textOf n ++ textsOf rest

end

mutual

/-- The `$el.clone(); clone.find('ul, ol').remove(); clone.text()`:
descendant text with every `ul`/`ol` subtree removed (the root itself is
kept even if it were a list — `find` only matches proper descendants). -/
def textWithoutLists : Node → String
  | .text s => s
  | .elem _ _ cs => textsWithoutLists cs

/-- The `textWithoutLists` over a child list: list subtrees contribute
nothing. -/
def textsWithoutLists : List Node → String
  | [] => ""
  | n :: rest =>
    (match n with
     | .text s => s
     | .elem t _ _ => if t = "ul" || t = "ol" then "" else textWithoutLists n)
    ++ textsWithoutLists rest

end

mutual

/-- The `$el.find(sel)` for a per-element predicate `p`: the proper
descendants of a node satisfying `p`, in document (pre)order. -/
def findAll (p : Node → Bool) : Node → List Node
  | .text _ => []
  | .elem _ _ cs => findAllList p cs

/-- The `findAll` over a node list: each node itself, then its descendants,
then its later siblings. -/
def findAllList (p : Node → Bool) : List Node → List Node
  | [] => []
  | n :: rest =>
    (if p n then [n] else []) ++ findAll p n ++ findAllList p rest

end

mutual

/-- Every element of a tree (the node itself included), in document
order. -/
def allElems : Node → List Node
  | .text _ => []
  | .elem t a cs => .elem t a cs :: allElemsList cs

/-- The `allElems` over a node list. -/
def allElemsList : List Node → List Node
  | [] => []
  | n :: rest => allElems n ++ allElemsList rest

end

mutual

/-- Every element of a tree paired with its ancestor count
(`$el.parents().length`); the root is at depth `d`. -/
def elemsDepth (d : Nat) : Node → List (Node × Nat)
  | .text _ => []
  | .elem t a cs => (.elem t a cs, d) :: elemsDepthList (d + 1) cs

/-- The `elemsDepth` over a node list. -/
def elemsDepthList (d : Nat) : List Node → List (Node × Nat)
  | [] => []
  | n :: rest => elemsDepth d n ++ elemsDepthList d rest

end

mutual

/-- Serialization of a node (attribute quoting as in markup,
entity escaping not modelled). -/
def outerHtml : Node → String
  | .text s => s
  | .elem t a cs =>
    "<" ++ t ++ attrsHtml a ++ ">" ++ innerHtmlList cs ++ "</" ++ t ++ ">"

/-- Serialization of a child list. -/
def innerHtmlList : List Node → String
  | [] => ""
  | n :: rest => outerHtml n ++ innerHtmlList rest

/-- Serialization of an attribute list. -/
def attrsHtml : List (String × String) → String
  | [] => ""
  | (k, v) :: rest => " " ++ k ++ "=\"" ++ v ++ "\"" ++ attrsHtml rest

end

/-- The `$el.html() || ''`: inner HTML of a node. -/
def innerHtml : Node → String
  | .text _ => ""
  | .elem _ _ cs => innerHtmlList cs

/-- The `getTextLength`: length of the whitespace-normalized, trimmed text. -/
def getTextLength (n : Node) : Nat :=
  (trimChars (collapseWsAux false (textOf n).data)).length

/-! ## Noise removal (`removeNoiseElements`)

Every rule of `removeNoiseElements` is a per-element predicate over the
element's tag and attributes (plus, for the one child-combinator selector
`.mw-parser-output > .hatnote`, its parent's class), so the sequence of
`$(sel).remove()` passes is modelled as one top-down sweep deleting every
subtree whose root matches the combined predicate. -/

/-- Split a character list on spaces (the separator of the HTML `class`
attribute). -/
def splitTokensAux (cur : List Char) : List Char → List String
  | [] => [⟨cur.reverse⟩]
  | c :: cs =>
    if c = ' ' then (⟨cur.reverse⟩ : String) :: splitTokensAux [] cs
    else splitTokensAux (c :: cur) cs

/-- The blank-separated tokens of a string, empties dropped. -/
def spaceTokens (s : String) : List String :=
  (splitTokensAux [] s.data).filter (· ≠ "")

/-- Class tokens of an attribute list (the `class` attribute split on
blanks), for CSS class selectors such as `.navbar`. -/
def classTokens (a : List (String × String)) : List String :=
  spaceTokens (classOfAttrs a)

/-- Structural noise tags in `NOISE_SELECTORS`. -/
def structuralNoiseTags : List String :=
  ["nav", "footer", "header", "aside", "noscript", "script", "style",
   "iframe", "svg"]

/-- ARIA roles removed by `NOISE_SELECTORS`. -/
def noiseRoles : List String :=
  ["navigation", "banner", "contentinfo", "complementary"]

/-- Exact class selectors (`.foo`) in `NOISE_SELECTORS` (the duplicated
`.sidebar` entry listed once). -/
def noiseClassTokens : List String :=
  ["nav", "navbar", "navigation", "menu", "sidebar", "footer", "header",
   "advertisement", "ad", "ads", "social-share", "social-links",
   "share-buttons", "cookie", "cookie-banner", "cookie-consent", "popup",
   "modal", "overlay", "breadcrumb", "breadcrumbs", "pagination", "pager",
   "comments", "comment-section", "related-posts", "recommended",
   "mw-editsection", "noprint", "navbox", "navbox-styles", "infobox",
   "toc", "reference", "mw-jump-link", "mw-references-wrap",
   "interlanguage-link", "mw-indicator", "catlinks", "printfooter",
   "mw-heading-collapsible", "vector-menu", "mw-portlet",
   "mw-interlanguage-selector"]

/-- Exact id selectors (`#foo`) in `NOISE_SELECTORS`. -/
def noiseIds : List String :=
  ["toc", "siteSub", "contentSub", "mw-navigation", "mw-panel",
   "p-lang-btn", "nav", "navigation", "menu", "sidebar", "footer",
   "header", "comments", "related", "advertisement"]

/-- Class-substring selectors (`[class*="..."]`) in `NOISE_SELECTORS`. -/
def noiseClassSubstrings : List String :=
  ["cookie", "popup", "modal", "banner", "newsletter", "subscribe",
   "promo"]

/-- The `noisePatterns` list of the class-pattern removal loop. -/
def noisePatterns : List String :=
  ["footer", "nav", "menu", "sidebar", "widget", "advertisement",
   "social", "share", "comment", "related", "recommended", "promo",
   "newsletter", "subscribe", "cookie", "gdpr", "consent"]

/-- The class-pattern removal loop over `$('[class]')`: the lowercased
class contains a noise pattern and does not contain `"content"`.  (An
element without a `class` attribute yields the empty string, which
contains no pattern, so the `[class]` restriction of the loop needs no
separate conjunct.) -/
def classPatternNoise (a : List (String × String)) : Bool :=
  noisePatterns.any (fun p => containsStr (lowerStr (classOfAttrs a)) p)
    && !containsStr (lowerStr (classOfAttrs a)) "content"

/-- The hidden-element removals at the end of `removeNoiseElements`. -/
def hiddenNoise (a : List (String × String)) : Bool :=
  (attrLookup "hidden" a).isSome
    || containsStr ((attrLookup "style" a).getD "") "display: none"
    || containsStr ((attrLookup "style" a).getD "") "display:none"
    || attrLookup "aria-hidden" a = some "true"

/-- The combined per-element predicate of `removeNoiseElements`; `pc` is
the parent element's class (for `.mw-parser-output > .hatnote`). -/
def isNoiseElem (pc t : String) (a : List (String × String)) : Bool :=
  structuralNoiseTags.contains t
    || (match attrLookup "role" a with
        | some r => noiseRoles.contains r
        | none => false)
    || noiseClassTokens.any (fun c => (classTokens a).contains c)
    || noiseIds.contains (idOfAttrs a)
    || noiseClassSubstrings.any (fun p => containsStr (classOfAttrs a) p)
    || containsStr ((attrLookup "href" a).getD "") "action=edit"
    || (spaceTokens pc).contains "mw-parser-output"
        && (classTokens a).contains "hatnote"
    || classPatternNoise a
    || hiddenNoise a

mutual

/-- One sweep of `removeNoiseElements` over a node: `none` when the node
matches and its whole subtree is removed; text nodes are untouched. -/
def filterNode (pc : String) : Node → Option Node
  | .text s => some (.text s)
  | .elem t a cs =>
    if isNoiseElem pc t a then none
    else some (.elem t a (filterList (classOfAttrs a) cs))

/-- The `filterNode` over a child list, `pc` being the class of the parent. -/
def filterList (pc : String) : List Node → List Node
  | [] => []
  | n :: rest =>
    (match filterNode pc n with
     | some m => [m]
     | none => []) ++ filterList pc rest

end

/-! ## Element content formatting (`extractElementContent` and helpers) -/

/-- The `parseInt(tag.charAt(1))` for the heading tags. -/
def headingLevel (t : String) : Nat :=
  match t with
  | "h1" => 1
  | "h2" => 2
  | "h3" => 3
  | "h4" => 4
  | "h5" => 5
  | "h6" => 6
  | _ => 0

/-- The `/^h[1-6]$/.test(tag)`. -/
def isHeadingTag16 (t : String) : Bool :=
  ["h1", "h2", "h3", "h4", "h5", "h6"].contains t

/-- Level of `$el.find('h1, h2, h3, h4, h5, h6').first()`: the first
heading among the proper descendants, in document order. -/
def firstHeadingLevel (n : Node) : Option Nat :=
  match findAll (fun m => isHeadingTag16 (tagOf m)) n with
  | [] => none
  | m :: _ => some (headingLevel (tagOf m))

/-- The `'  '.repeat(depth)`. -/
def indentFor (d : Nat) : String :=
  String.join (List.replicate d "  ")

mutual

/-- The `formatList`: one line per direct `li` child (bulleted or 1-based
numbered), the item text computed with nested lists removed, followed by
the recursively formatted direct nested lists one indent level deeper;
lines joined by `'\n'`.  (The unordered bullet glyph is the literal
three-character string present in the source file.) -/
def formatList (ordered : Bool) (depth : Nat) : Node → String
  | .text _ => ""
  | .elem _ _ cs => String.intercalate "\n" (listItemLines ordered depth 0 cs)

/-- The item lines of `formatList` over the direct children; `idx` counts
the `li` children seen so far (the `each` index). -/
def listItemLines (ordered : Bool) (depth : Nat) (idx : Nat) : List Node → List String
  | [] => []
  | n :: rest =>
    match n with
    | .elem "li" _ lcs =>
      ((let s := cleanText (textsWithoutLists lcs)
        if s ≠ "" then
          [indentFor depth
            ++ (if ordered then Nat.repr (idx + 1) ++ "." else "â€¢")
            ++ " " ++ s]
        else [])
        ++ nestedListLines depth lcs)
        ++ listItemLines ordered depth (idx + 1) rest
    | _ => listItemLines ordered depth idx rest

/-- The `$li.children('ul, ol')` formatted one level deeper; empty results
are not pushed. -/
def nestedListLines (depth : Nat) : List Node → List String
  | [] => []
  | n :: rest =>
    (match n with
     | .elem "ul" _ _ =>
       (let s := formatList false (depth + 1) n
        if s ≠ "" then [s] else [])
     | .elem "ol" _ _ =>
       (let s := formatList true (depth + 1) n
        if s ≠ "" then [s] else [])
     | _ => []) ++ nestedListLines depth rest

end

/-- The `extractTableContent`: for every descendant `tr`, the cleaned
non-empty `th`/`td` cell texts joined by `' | '`; rows with no such cell
are not pushed; the pushed rows joined by `'\n'`. -/
def extractTableContent (n : Node) : String :=
  String.intercalate "\n"
    ((findAll (fun m => tagOf m = "tr") n).foldl
      (fun rows tr =>
        let cells :=
          (findAll (fun m => tagOf m = "th" || tagOf m = "td") tr).foldl
            (fun cs cell =>
              let s := cleanText (textOf cell)
              if s ≠ "" then cs ++ [s] else cs) []
        if cells.length > 0 then rows ++ [String.intercalate " | " cells]
        else rows) [])

/-- The paragraph-like tags of `extractElementContent`. -/
def pLikeTags : List String :=
  ["p", "div", "section", "article", "blockquote", "figcaption"]

/-- The `extractElementContent`: tag-dispatched conversion of one sibling
element into ordered text fragments. -/
def extractElementContent (n : Node) : List String :=
  let t := tagOf n
  if t = "ul" || t = "ol" then
    let lc := formatList (t = "ol") 0 n
    if lc ≠ "" then [lc] else []
  else
    (if pLikeTags.contains t then
      let lists := findAll (fun m => tagOf m = "ul" || tagOf m = "ol") n
      if lists.length > 0 then
        (let tc := cleanText (textWithoutLists n)
         if tc ≠ "" then [tc] else [])
          ++ lists.foldl (fun acc l =>
               let s := formatList (tagOf l = "ol") 0 l
               if s ≠ "" then acc ++ [s] else acc) []
      else
        let ps := findAll (fun m => tagOf m = "p") n
        if ps.length > 0 && t ≠ "p" then
          ps.foldl (fun acc p =>
            let s := cleanText (textOf p)
            if s ≠ "" then acc ++ [s] else acc) []
        else
          let s := cleanText (textOf n)
          if s ≠ "" then [s] else []
     else [])
    ++ (if t = "dl" then
          (findAll (fun m => tagOf m = "dt" || tagOf m = "dd") n).foldl
            (fun acc item =>
              let s := cleanText (textOf item)
              if s ≠ "" then
                acc ++ [if tagOf item = "dt" then "**" ++ s ++ "**"
                        else "  " ++ s]
              else acc) []
        else [])
    ++ (if t = "table" then
          let s := extractTableContent n
          if s ≠ "" then [s] else []
        else [])

/-! ## Section content collection (`collectContentAfterHeading`) -/

/-- The per-fragment loop body of `collectContentAfterHeading`: trim each
fragment, then append it unless empty or already seen; returns the newly
appended fragments and the grown seen-set. -/
def pushFrags (seen : List String) : List String → List String × List String
  | [] => ([], seen)
  | f :: fs =>
    let t := strTrim f
    if t ≠ "" ∧ t ∉ seen then
      let r := pushFrags (t :: seen) fs
      (t :: r.1, r.2)
    else pushFrags seen fs

/-- The sibling walk of `collectContentAfterHeading` for a heading of
level `level`, over the list of following siblings: stop at a heading
sibling of level `≤ level` or at an `mw-heading` wrapper whose first
heading descendant has level `≤ level`; skip any other `mw-heading`
wrapper; otherwise collect the element's fragments (trimmed,
deduplicated).  Text-node siblings are invisible to cheerio's `.next()`
and fall through the element branches contributing nothing. -/
def collectContent (level : Nat) (seen : List String) : List Node → List String
  | [] => []
  | n :: rest =>
    if isHeadingTag16 (tagOf n) && headingLevel (tagOf n) ≤ level then []
    else if containsStr (classOf n) "mw-heading" &&
        (match firstHeadingLevel n with
         | some m => m ≤ level
         | none => false) then []
    else if containsStr (classOf n) "mw-heading" then
      collectContent level seen rest
    else
      let r := pushFrags seen (extractElementContent n)
      r.1 ++ collectContent level r.2 rest

/-! ## Heading extraction (`extractHeadingsWithContent`) -/

/-- One heading of the output: level 1–4, cleaned text, and the collected
content fragments. -/
structure HeadingWithContent where
  level : Nat
  text : String
  content : List String
deriving DecidableEq, Repr

/-- The `isNoiseHeading`: anchored case-insensitive patterns over the trimmed
heading text. -/
def isNoiseHeading (text : String) : Bool :=
  let s := lowerStr (strTrim text)
  s = "edit" || s = "[edit]" || s = "content" || s = "contents"
    || s = "table of contents" || s = "navigation" || s = "menu"
    || s = "search" || s = "language" || s = "languages"
    || (let ds := s.data.takeWhile Char.isDigit
        let r := (s.data.dropWhile Char.isDigit).dropWhile fun c => isWs c
        !ds.isEmpty && (r = "language".data || r = "languages".data))

/-- The heading-wrapper detection on the heading's parent class
(`/mw-heading/` and `/heading-wrapper|section-heading|title-wrapper/`). -/
def isWrapperClass (pc : String) : Bool :=
  containsStr pc "mw-heading" || containsStr pc "heading-wrapper"
    || containsStr pc "section-heading" || containsStr pc "title-wrapper"

mutual

/-- Headings strictly inside a node, given the node's later siblings
`pf` (needed when a child heading's parent is a heading wrapper, in which
case the sibling walk starts from the wrapper's later siblings). -/
def hwcNode (pf : List Node) : Node → List HeadingWithContent
  | .text _ => []
  | .elem _ a cs => hwcSibs (classOfAttrs a) pf cs

/-- Headings found in a sibling list (children of an element with class
`pc` whose own later siblings are `pf`), in document order, each paired
with its collected section content. -/
def hwcSibs (pc : String) (pf : List Node) : List Node → List HeadingWithContent
  | [] => []
  | n :: rest =>
    (match n with
     | .elem t _ _ =>
       if ["h1", "h2", "h3", "h4"].contains t then
         let txt := cleanText (textOf n)
         if txt ≠ "" ∧ ¬isNoiseHeading txt then
           [{ level := headingLevel t, text := txt,
              content := collectContent (headingLevel t) []
                (if isWrapperClass pc then pf else rest) }]
         else []
       else []
     | .text _ => []) ++ hwcNode rest n ++ hwcSibs pc pf rest

end

/-- The `extractHeadingsWithContent` over a container element: all `h1`–`h4`
descendants in document order whose cleaned text is non-empty and not a
noise heading, each with its sibling-collected content.  The container's
own siblings are outside the modelled scope (the selected containers are
never heading wrappers), so the top-level `pf` is empty. -/
def extractHeadingsWithContent (container : Node) : List HeadingWithContent :=
  match container with
  | .text _ => []
  | .elem _ a cs => hwcSibs (classOfAttrs a) [] cs

/-! ## Content container selection

The floating-point score arithmetic of `findHighestTextDensityElement`
is modelled with exact rationals represented as numerator/denominator
pairs; every denominator arising below is positive, so the
cross-multiplication comparison is exact. -/

/-- An exact rational: numerator and (positive, by construction)
denominator; not reduced. -/
structure Q where
  num : Int
  den : Int
deriving DecidableEq, Repr

/-- Rational multiplication. -/
def Q.mul (x y : Q) : Q := ⟨x.num * y.num, x.den * y.den⟩

/-- Rational addition. -/
def Q.add (x y : Q) : Q := ⟨x.num * y.den + y.num * x.den, x.den * y.den⟩

/-- Rational division (the divisor's numerator is positive at every use
site below). -/
def Q.div (x y : Q) : Q := ⟨x.num * y.den, x.den * y.num⟩

/-- Strict comparison by cross multiplication (valid for positive
denominators). -/
def Q.blt (x y : Q) : Bool := x.num * y.den < y.num * x.den

/-- The `Math.min`. -/
def Q.minQ (x y : Q) : Q := if Q.blt y x then y else x

/-- Is the node an element (`$el.find('*')` matches elements only)? -/
def isElemNode : Node → Bool
  | .text _ => false
  | .elem _ _ _ => true

/-- The `calculateTextToTagRatio`: normalized text length over descendant
element count plus one. -/
def calculateTextToTagRatio (n : Node) : Q :=
  ⟨getTextLength n, (findAll isElemNode n).length + 1⟩

/-- The `calculateLinkDensity`: summed normalized anchor-text length over the
normalized total text length; `1` when the text is empty. -/
def calculateLinkDensity (n : Node) : Q :=
  let totalText := getTextLength n
  if totalText = 0 then ⟨1, 1⟩
  else
    ⟨(findAll (fun m => tagOf m = "a") n).foldl
      (fun acc a => acc + getTextLength a) 0, totalText⟩

/-- The tags scored by Phase B. -/
def containerCandidateTags : List String := ["div", "section", "article", "main"]

/-- The `/content|article|post|entry|body|main/` over class + id. -/
def contentIndicators : List String :=
  ["content", "article", "post", "entry", "body", "main"]

/-- The `/sidebar|widget|aside|related|popular|trending/` over class + id. -/
def sidebarIndicators : List String :=
  ["sidebar", "widget", "aside", "related", "popular", "trending"]

/-- The Phase-B score of a candidate at ancestor depth `depth`:
`0.4·min(len/5000,1) + 0.3·(len/htmlLen) + 0.3·min(ratio/50,1)`, then the
`article`/`main`/content-class boosts, the depth division and the
sidebar penalty, in source order. -/
def candidateScore (el : Node) (depth : Nat) : Q :=
  let textLength := getTextLength el
  let normalizedLength := Q.minQ ⟨textLength, 5000⟩ ⟨1, 1⟩
  let normalizedDensity : Q := ⟨textLength, (innerHtml el).length⟩
  let normalizedRatio := Q.minQ (Q.div (calculateTextToTagRatio el) ⟨50, 1⟩) ⟨1, 1⟩
  let base :=
    Q.add (Q.add (Q.mul normalizedLength ⟨2, 5⟩)
                 (Q.mul normalizedDensity ⟨3, 10⟩))
          (Q.mul normalizedRatio ⟨3, 10⟩)
  let s1 := if tagOf el = "article" then Q.mul base ⟨3, 2⟩ else base
  let s2 := if tagOf el = "main" then Q.mul s1 ⟨7, 5⟩ else s1
  let cid := lowerStr (classOf el) ++ lowerStr (idOf el)
  let s3 := if contentIndicators.any (fun p => containsStr cid p)
            then Q.mul s2 ⟨13, 10⟩ else s2
  let s4 := Q.div s3 (Q.add ⟨1, 1⟩ (Q.mul ⟨(depth : Int), 1⟩ ⟨1, 20⟩))
  if sidebarIndicators.any (fun p => containsStr cid p)
  then Q.mul s4 ⟨3, 10⟩ else s4

/-- The Phase-B candidate list: every `div`/`section`/`article`/`main`
element of the document (in document order, with its depth) that passes
the three early-return guards, paired with its score. -/
def candidateList (doc : Node) : List (Node × Q) :=
  (elemsDepthList 0 [doc]).filterMap fun p =>
    if containerCandidateTags.contains (tagOf p.1) then
      if getTextLength p.1 < 200 then none
      else if Q.blt ⟨1, 2⟩ (calculateLinkDensity p.1) then none
      else if (innerHtml p.1).length = 0 then none
      else some (p.1, candidateScore p.1 p.2)
    else none

/-- The first-encountered maximum-score candidate — what
`candidates.sort((a, b) => b.score - a.score)[0]` selects, the sort being
stable. -/
def pickBestCandidate (c : Node × Q) (cs : List (Node × Q)) : Node × Q :=
  cs.foldl (fun best x => if Q.blt best.2 x.2 then x else best) c

/-- The `$('body')`: the first `body` element, defaulting to the document
root (the parser always supplies one). -/
def bodyElement (doc : Node) : Node :=
  match findAllList (fun m => tagOf m = "body") [doc] with
  | [] => doc
  | b :: _ => b

/-- The `findHighestTextDensityElement`: the best-scoring candidate when its
score is positive, else the body. -/
def findHighestTextDensityElement (doc : Node) : Node :=
  match candidateList doc with
  | [] => bodyElement doc
  | c :: cs =>
    let best := pickBestCandidate c cs
    if Q.blt ⟨0, 1⟩ best.2 then best.1 else bodyElement doc

/-- The Phase-A priority list of semantic container selectors, as
per-element predicates in source order. -/
def phaseASelectors : List (Node → Bool) :=
  [fun n => tagOf n = "main",
   fun n => tagOf n = "article",
   fun n => attrOf "role" n = some "main",
   fun n => idOf n = "content",
   fun n => idOf n = "main-content",
   fun n => idOf n = "main",
   fun n => (classTokens (attrsOf n)).contains "content",
   fun n => (classTokens (attrsOf n)).contains "post",
   fun n => (classTokens (attrsOf n)).contains "article",
   fun n => (classTokens (attrsOf n)).contains "entry-content",
   fun n => (classTokens (attrsOf n)).contains "post-content",
   fun n => (classTokens (attrsOf n)).contains "article-content",
   fun n => (classTokens (attrsOf n)).contains "page-content",
   fun n => (classTokens (attrsOf n)).contains "main-content"]

/-- The match with the longest normalized text (first-encountered
maximum, as in the source's strict-greater update). -/
def bestByTextLength (m : Node) (ms : List Node) : Node :=
  ms.foldl (fun best x =>
    if getTextLength best < getTextLength x then x else best) m

/-- The Phase-A loop of `findContentContainer`: first selector whose
longest-text match exceeds 100 characters wins; otherwise fall through
to Phase B. -/
def phaseALoop (doc : Node) : List (Node → Bool) → Node
  | [] => findHighestTextDensityElement doc
  | sel :: rest =>
    match findAllList sel [doc] with
    | [] => phaseALoop doc rest
    | m :: ms =>
      let best := bestByTextLength m ms
      if 100 < getTextLength best then best else phaseALoop doc rest

/-- The `findContentContainer`. -/
def findContentContainer (doc : Node) : Node :=
  phaseALoop doc phaseASelectors

/-! ## Fallback extraction (`extractFallbackContent`) -/

/-- Tiered best-effort content, labelled with the strategy that produced
it. -/
structure FallbackContent where
  source : String
  text : String
deriving DecidableEq, Repr

/-- The `isNavigationText`: anchored case-insensitive navigation phrases and
pure numbers, over the trimmed text. -/
def isNavigationText (t : String) : Bool :=
  let s := lowerStr (strTrim t)
  ["home", "about", "contact", "login", "sign up", "sign in", "register",
   "search", "prev", "next", "previous", "back", "forward", "more",
   "less", "show", "hide"].contains s
    || (!s.data.isEmpty && s.data.all Char.isDigit)

/-- The `[...new Set(l)]`: first occurrences, in order. -/
def firstDedup (seen : List String) : List String → List String
  | [] => []
  | a :: l =>
    if a ∈ seen then firstDedup seen l
    else a :: firstDedup (a :: seen) l

/-- The article-container selectors of fallback strategy 1
(`['article', '.article', '.post', '.entry', '.story', '.item']`). -/
def fallbackArticlePreds : List (Node → Bool) :=
  [fun n => tagOf n = "article",
   fun n => (classTokens (attrsOf n)).contains "article",
   fun n => (classTokens (attrsOf n)).contains "post",
   fun n => (classTokens (attrsOf n)).contains "entry",
   fun n => (classTokens (attrsOf n)).contains "story",
   fun n => (classTokens (attrsOf n)).contains "item"]

/-- Strategies 2 and 3 of `extractFallbackContent`: paragraphs longer
than 30, then deduplicated `td`/`span`/`a` text blocks in (20, 500) that
are not navigation phrases. -/
def fallbackTail (container : Node) : Option FallbackContent :=
  let ps := (findAll (fun m => tagOf m = "p") container).foldl
    (fun acc p =>
      let t := cleanText (textOf p)
      if t ≠ "" ∧ 30 < t.length then acc ++ [t] else acc) []
  if ps.length > 0 then
    some ⟨"paragraphs", String.intercalate "\n\n" (ps.take 20)⟩
  else
    let blocks :=
      (findAll (fun m => tagOf m = "td" || tagOf m = "span" || tagOf m = "a")
        container).foldl
        (fun acc el =>
          let t := cleanText (textOf el)
          if t ≠ "" ∧ 20 < t.length ∧ t.length < 500 ∧ ¬isNavigationText t
          then acc ++ [t] else acc) []
    if blocks.length > 0 then
      some ⟨"text-blocks", String.intercalate "\n" ((firstDedup [] blocks).take 30)⟩
    else none

/-- Strategy 1 of `extractFallbackContent` over the selector list: the
first selector with matches whose qualifying texts (length > 50,
truncated to 500 with an ellipsis) are non-empty wins; otherwise the
later strategies run. -/
def fallbackLoop (container : Node) : List (Node → Bool) → Option FallbackContent
  | [] => fallbackTail container
  | sel :: rest =>
    let articles := findAll sel container
    if articles.length > 0 then
      let texts := articles.foldl
        (fun acc art =>
          let t := cleanText (textOf art)
          if t ≠ "" ∧ 50 < t.length then
            acc ++ [t.take 500 ++ (if 500 < t.length then "..." else "")]
          else acc) []
      if texts.length > 0 then
        some ⟨"article-containers", String.intercalate "\n\n" (texts.take 10)⟩
      else fallbackLoop container rest
    else fallbackLoop container rest

/-- The `extractFallbackContent`: invoked only when no headings were found;
may itself produce nothing. -/
def extractFallbackContent (container : Node) : Option FallbackContent :=
  fallbackLoop container fallbackArticlePreds

/-! ## Metadata extraction -/

/-- JavaScript `a || b` over possibly-absent strings: the empty string
and `undefined` are falsy. -/
def jsOr (a b : Option String) : Option String :=
  match a with
  | some s => if s ≠ "" then some s else b
  | none => b

/-- The `content` attribute of the first element matching `p`, trimmed
(`$(sel).attr('content')?.trim()`). -/
def firstContentAttr (p : Node → Bool) (doc : Node) : Option String :=
  match findAllList p [doc] with
  | [] => none
  | m :: _ => (attrOf "content" m).map strTrim

/-- The `extractMetaTitle`: title element text, `og:title`, `twitter:title`,
first `h1` text; first non-empty wins, else `null`. -/
def extractMetaTitle (doc : Node) : Option String :=
  jsOr (some (strTrim (String.join
        ((findAllList (fun n => tagOf n = "title") [doc]).map textOf))))
    (jsOr (firstContentAttr
        (fun n => tagOf n = "meta" && attrOf "property" n = some "og:title") doc)
      (jsOr (firstContentAttr
          (fun n => tagOf n = "meta" && attrOf "name" n = some "twitter:title") doc)
        (match findAllList (fun n => tagOf n = "h1") [doc] with
         | [] => none
         | h :: _ => jsOr (some (strTrim (textOf h))) none)))

/-- The `extractMetaDescription`: description meta, `og:description`,
`twitter:description`; first non-empty wins, else `null`. -/
def extractMetaDescription (doc : Node) : Option String :=
  jsOr (firstContentAttr
      (fun n => tagOf n = "meta" && attrOf "name" n = some "description") doc)
    (jsOr (firstContentAttr
        (fun n => tagOf n = "meta" && attrOf "property" n = some "og:description") doc)
      (firstContentAttr
        (fun n => tagOf n = "meta" && attrOf "name" n = some "twitter:description") doc))

/-! ## The pipeline (`extractSEOContent` after the fetch) -/

/-- The final output record; `url` and `extractedAt` are supplied by the
external fetch collaborator and clock. -/
structure ExtractedContent where
  url : String
  metaTitle : Option String
  metaDescription : Option String
  headings : List HeadingWithContent
  fallbackContent : Option FallbackContent
  extractedAt : String
deriving DecidableEq, Repr

/-- The extraction pipeline on a parsed document: metadata, noise
filtering, container selection, heading extraction, and — only when no
heading was found — fallback extraction.  (Removing the whole document
root cannot happen for real pages; the default keeps the function
total.) -/
def extractContent (url extractedAt : String) (doc : Node) : ExtractedContent :=
  let metaTitle := extractMetaTitle doc
  let metaDescription := extractMetaDescription doc
  let filtered := (filterNode "" doc).getD (.elem "html" [] [])
  let container := findContentContainer filtered
  let headings := extractHeadingsWithContent container
  let fallbackContent :=
    if headings = [] then extractFallbackContent container else none
  { url := url, metaTitle := metaTitle, metaDescription := metaDescription,
    headings := headings, fallbackContent := fallbackContent,
    extractedAt := extractedAt }

/-! # Verification layer

Reference definitions written for the statements of the verified
properties, and structural lemmas established by recursion over the
tree. -/

/-- The closed dispatch set of `extractElementContent`. -/
def dispatchTags : List String :=
  ["ul", "ol", "p", "div", "section", "article", "blockquote",
   "figcaption", "dl", "table"]

mutual

/-- A tree kept by one filter sweep is kept unchanged by a second. -/
def filterNode_fix : (pc : String) → (n m : Node) → filterNode pc n = some m →
    filterNode pc m = some m
  | pc, .text s, m, h => by
    simp only [filterNode, Option.some.injEq] at h
    subst h
    rfl
  | pc, .elem t a cs, m, h => by
    simp only [filterNode] at h
    by_cases hn : isNoiseElem pc t a = true
    · simp [hn] at h
    · simp only [hn, Bool.false_eq_true, if_false, Option.some.injEq] at h
      subst h
      simp only [filterNode, hn, Bool.false_eq_true, if_false,
        Option.some.injEq]
      exact congrArg (Node.elem t a) (filterList_fix (classOfAttrs a) cs)

/-- One filter sweep over a child list is idempotent. -/
def filterList_fix : (pc : String) → (l : List Node) →
    filterList pc (filterList pc l) = filterList pc l
  | _, [] => rfl
  | pc, n :: rest => by
    cases hn : filterNode pc n with
    | none =>
      simp only [filterList, hn, List.nil_append]
      exact filterList_fix pc rest
    | some m =>
      simp only [filterList, hn, List.singleton_append,
        filterNode_fix pc n m hn]
      exact congrArg (m :: ·) (filterList_fix pc rest)

end

mutual

/-- Every element surviving a filter sweep fails the class-pattern
noise rule. -/
def filterNode_clean : (pc : String) → (n m : Node) → filterNode pc n = some m →
    ∀ e ∈ allElems m, classPatternNoise (attrsOf e) = false
  | pc, .text s, m, h => by
    simp only [filterNode, Option.some.injEq] at h
    subst h
    intro e he
    simp [allElems] at he
  | pc, .elem t a cs, m, h => by
    simp only [filterNode] at h
    by_cases hn : isNoiseElem pc t a = true
    · simp [hn] at h
    · simp only [hn, Bool.false_eq_true, if_false, Option.some.injEq] at h
      subst h
      intro e he
      simp only [allElems, List.mem_cons] at he
      rcases he with rfl | he
      · simp only [attrsOf]
        simp only [isNoiseElem, Bool.or_eq_true, not_or] at hn
        simpa using hn.1.2
      · exact filterList_clean (classOfAttrs a) cs e he

/-- Every element surviving a filter sweep over a child list fails the
class-pattern noise rule. -/
def filterList_clean : (pc : String) → (l : List Node) →
    ∀ e ∈ allElemsList (filterList pc l),
      classPatternNoise (attrsOf e) = false
  | _, [], e, he => by simp [filterList, allElemsList] at he
  | pc, n :: rest, e, he => by
    cases hn : filterNode pc n with
    | none =>
      simp only [filterList, hn, List.nil_append] at he
      exact filterList_clean pc rest e he
    | some m =>
      simp only [filterList, hn, List.singleton_append, allElemsList,
        List.mem_append] at he
      rcases he with he | he
      · exact filterNode_clean pc n m hn e he
      · exact filterList_clean pc rest e he

end

/-- The noise substrings named by the claim (the source additionally
checks `recommended` and `gdpr`). -/
def claimNoisePatterns : List String :=
  ["footer", "nav", "menu", "sidebar", "widget", "advertisement",
   "social", "share", "comment", "related", "promo", "newsletter",
   "subscribe", "cookie", "consent"]

/-- The claim's removal rule restricted to the class attribute: the
lowercased class contains one of the claimed noise substrings and does
not contain `"content"`. -/
def claimClassNoise (a : List (String × String)) : Bool :=
  claimNoisePatterns.any (fun p => containsStr (lowerStr (classOfAttrs a)) p)
    && !containsStr (lowerStr (classOfAttrs a)) "content"

/-- A sibling at which the walk for a level-`level` heading stops: a
heading of level `≤ level`, or an `mw-heading` wrapper whose *first*
heading descendant has level `≤ level`. -/
def stopSibling (level : Nat) (n : Node) : Bool :=
  (isHeadingTag16 (tagOf n) && headingLevel (tagOf n) ≤ level)
    || (containsStr (classOf n) "mw-heading" &&
        (match firstHeadingLevel n with
         | some m => m ≤ level
         | none => false))

/-- A sibling the walk skips without collecting: an `mw-heading` wrapper
that does not stop the walk. -/
def skipSibling (level : Nat) (n : Node) : Bool :=
  containsStr (classOf n) "mw-heading" && !stopSibling level n

/-- The trimmed, non-empty fragments of an element, in order. -/
def trimmedFrags (fs : List String) : List String :=
  (fs.map strTrim).filter (· ≠ "")

/-- The raw fragment stream of a section: the walk of `collectContent`
with the per-heading deduplication left out — every trimmed non-empty
fragment in document order. -/
def sectionFragmentStream (level : Nat) : List Node → List String
  | [] => []
  | n :: rest =>
    if isHeadingTag16 (tagOf n) && headingLevel (tagOf n) ≤ level then []
    else if containsStr (classOf n) "mw-heading" &&
        (match firstHeadingLevel n with
         | some m => m ≤ level
         | none => false) then []
    else if containsStr (classOf n) "mw-heading" then
      sectionFragmentStream level rest
    else
      trimmedFrags (extractElementContent n) ++ sectionFragmentStream level rest

/-- The seen-set after first-occurrence deduplication of a list. -/
def seenAfter (seen : List String) : List String → List String
  | [] => seen
  | a :: l => if a ∈ seen then seenAfter seen l else seenAfter (a :: seen) l

/-- The per-row fragments of a table as the spec describes them: for
every `tr` (in document order) with at least one non-empty cleaned
`th`/`td` cell, the non-empty cells joined by `' | '`; all-empty rows
contribute nothing. -/
def rowFragments (n : Node) : List String :=
  (findAll (fun m => tagOf m = "tr") n).filterMap fun tr =>
    let cells := ((findAll (fun m => tagOf m = "th" || tagOf m = "td") tr).map
        (fun c => cleanText (textOf c))).filter (· ≠ "")
    if cells = [] then none else some (String.intercalate " | " cells)

/-- Normal form after one collapse: every whitespace character is a
single space and no two are adjacent (`prev` tracks whether the previous
character was a space). -/
def tidyB : Bool → List Char → Bool
  | _, [] => true
  | prev, c :: cs =>
    if isWs c then (c = ' ' && !prev && tidyB true cs) else tidyB false cs

mutual

/-- Every heading found inside a node has level 1–4 and non-empty text. -/
def hwcNode_ok : (pf : List Node) → (n : Node) →
    ∀ h ∈ hwcNode pf n, h.level ∈ ([1, 2, 3, 4] : List Nat) ∧ h.text ≠ ""
  | pf, .text _, h, hmem => by simp [hwcNode] at hmem
  | pf, .elem t a cs, h, hmem => by
    simp only [hwcNode] at hmem
    exact hwcSibs_ok (classOfAttrs a) pf cs h hmem

/-- Every heading found in a sibling list has level 1–4 and non-empty
text. -/
def hwcSibs_ok : (pc : String) → (pf : List Node) → (l : List Node) →
    ∀ h ∈ hwcSibs pc pf l, h.level ∈ ([1, 2, 3, 4] : List Nat) ∧ h.text ≠ ""
  | pc, pf, [], h, hmem => by simp [hwcSibs] at hmem
  | pc, pf, n :: rest, h, hmem => by
    simp only [hwcSibs, List.mem_append] at hmem
    rcases hmem with hmem | hmem
    · rcases hmem with hmem | hmem
      · cases n with
        | text s => simp at hmem
        | elem t a cs =>
          simp only at hmem
          by_cases ht : (["h1", "h2", "h3", "h4"] : List String).contains t
          · rw [if_pos ht] at hmem
            by_cases htxt : cleanText (textOf (.elem t a cs)) ≠ ""
                ∧ ¬isNoiseHeading (cleanText (textOf (.elem t a cs))) = true
            · rw [if_pos htxt] at hmem
              rcases List.mem_singleton.mp hmem with rfl
              refine ⟨?_, htxt.1⟩
              have ht' : t = "h1" ∨ t = "h2" ∨ t = "h3" ∨ t = "h4" := by
                simpa using ht
              rcases ht' with rfl | rfl | rfl | rfl <;> simp [headingLevel]
            · rw [if_neg htxt] at hmem
              simp at hmem
          · rw [if_neg ht] at hmem
            simp at hmem
      · exact hwcNode_ok rest n h hmem
    · exact hwcSibs_ok pc pf rest h hmem

end

set_option maxRecDepth 200000

/-! ## Theorems -/

/-- C10: An element whose tag is outside the closed dispatch set
{ul, ol, p, div, section, article, blockquote, figcaption, dl, table}
contributes zero content fragments: the element-content formatter
returns the empty fragment list on it. -/
theorem claim_c10 (t : String) (a : List (String × String)) (cs : List Node)
    (h : t ∉ dispatchTags) :
    extractElementContent (.elem t a cs) = [] := by
  simp only [dispatchTags, List.mem_cons, not_or, List.mem_singleton] at h
  obtain ⟨h1, h2, h3, h4, h5, h6, h7, h8, h9, h10, -⟩ := h
  simp [extractElementContent, tagOf, pLikeTags,
    h1, h2, h3, h4, h5, h6, h7, h8, h9, h10]

/-- Witness for C10 at the `pre` element. -/
theorem claim_c10_witness :
    extractElementContent (.elem "pre" [] [.text "code"]) = [] :=
  claim_c10 "pre" [] [.text "code"] (by decide)

/-- C5: The noise filter is idempotent — a second pass over the tree
produced by one pass removes nothing further. -/
theorem claim_c5 (pc : String) (n : Node) :
    (filterNode pc n).bind (filterNode pc) = filterNode pc n := by
  cases h : filterNode pc n with
  | none => rfl
  | some m => simpa [Option.bind] using filterNode_fix pc n m h

/-- Each claimed pattern is one of the source's patterns. -/
theorem claimClassNoise_implies (a : List (String × String))
    (h : claimClassNoise a = true) : classPatternNoise a = true := by
  simp only [claimClassNoise, Bool.and_eq_true, List.any_eq_true] at h
  obtain ⟨⟨p, hp, hc⟩, hnc⟩ := h
  simp only [classPatternNoise, Bool.and_eq_true, List.any_eq_true]
  refine ⟨⟨p, ?_, hc⟩, hnc⟩
  fin_cases hp <;> simp [noisePatterns]

/-- C6 counterexample: an element whose `id` contains the noise
substring `footer` (and not `content`) but has no class survives the
noise filter untouched, so the claimed "class or id" rule is false of
the code, which inspects the class alone. -/
theorem claim_c6_counterexample :
    containsStr (lowerStr (idOf (.elem "div" [("id", "xfooterx")] [.text "hi"]))) "footer" = true
    ∧ containsStr (lowerStr (idOf (.elem "div" [("id", "xfooterx")] [.text "hi"]))) "content" = false
    ∧ filterNode "" (.elem "div" [("id", "xfooterx")] [.text "hi"])
        = some (.elem "div" [("id", "xfooterx")] [.text "hi"]) := by
  refine ⟨by decide, by decide, rfl⟩

/-- C6 (amended): the noise filter removes every element whose lowercased
*class* contains one of the claimed noise substrings without also
containing `"content"` — no element of the filtered output satisfies
that rule.  (The id is not inspected by the class-pattern loop.) -/
theorem claim_c6 (pc : String) (n m : Node) (h : filterNode pc n = some m) :
    ∀ e ∈ allElems m, claimClassNoise (attrsOf e) = false := by
  intro e he
  by_contra hc
  have hc' : claimClassNoise (attrsOf e) = true := by
    simpa using hc
  have := filterNode_clean pc n m h e he
  rw [claimClassNoise_implies _ hc'] at this
  exact absurd this (by decide)

/-- Witness for C6: a surviving element with a content-like class. -/
theorem claim_c6_witness :
    claimClassNoise (attrsOf (.elem "div" [("class", "main-box")] [])) = false :=
  claim_c6 "" (.elem "div" [("class", "main-box")] [])
    (.elem "div" [("class", "main-box")] []) rfl
    (.elem "div" [("class", "main-box")] [])
    (by simp [allElems, allElemsList])

/-- C3 counterexample: for a level-2 heading, a wrapper sibling that
*contains* a heading of level ≤ 2 (an `h2` after an `h4`) does not stop
the walk — only the wrapper's first heading descendant is consulted —
and the following paragraph is still collected, contradicting the claim
that traversal stops at any wrapper containing such a heading. -/
theorem claim_c3_counterexample :
    ((findAll (fun m => isHeadingTag16 (tagOf m))
        (.elem "div" [("class", "mw-heading")]
          [.elem "h4" [] [.text "x"], .elem "h2" [] [.text "y"]])).any
      (fun m => headingLevel (tagOf m) ≤ 2)) = true
    ∧ collectContent 2 []
        [.elem "div" [("class", "mw-heading")]
          [.elem "h4" [] [.text "x"], .elem "h2" [] [.text "y"]],
         .elem "p" [] [.text "hello"]] = ["hello"] := by
  exact ⟨by decide, by decide⟩

/-- C3 (amended): the walk stops at the first sibling that is a heading
of level ≤ L or an `mw-heading` wrapper whose *first heading descendant*
has level ≤ L — nothing at or beyond such a sibling is collected; a
wrapper sibling that does not stop the walk (its first heading
descendant, if any, has level > L) is skipped, contributes no content,
and traversal continues past it. -/
theorem claim_c3 (level : Nat) (seen : List String) (pre : List Node)
    (s : Node) (rest : List Node) :
    (stopSibling level s = true →
      collectContent level seen (pre ++ s :: rest)
        = collectContent level seen (pre ++ [s]))
    ∧ (skipSibling level s = true →
      collectContent level seen (pre ++ s :: rest)
        = collectContent level seen (pre ++ rest)) := by
  induction pre generalizing seen with
  | nil =>
    constructor
    · intro hstop
      simp only [stopSibling, Bool.or_eq_true, Bool.and_eq_true] at hstop
      simp only [List.nil_append]
      rcases hstop with ⟨hh, hl⟩ | ⟨hw, hm⟩
      · simp [collectContent, hh, hl]
      · simp [collectContent, hw, hm]
    · intro hskip
      have h' := hskip
      simp only [skipSibling, Bool.and_eq_true, Bool.not_eq_true'] at h'
      obtain ⟨hw, hns⟩ := h'
      simp only [stopSibling, Bool.or_eq_false_iff] at hns
      have hB : (match firstHeadingLevel s with
          | some m => decide (m ≤ level)
          | none => false) = false := by
        simpa [hw] using hns.2
      simp only [List.nil_append, collectContent, hns.1, hB, hw]
      simp
  | cons q pre ih =>
    constructor
    · intro hstop
      simp only [List.cons_append, collectContent]
      split
      · rfl
      · split
        · rfl
        · split
          · exact (ih seen).1 hstop
          · exact congrArg _ ((ih _).1 hstop)
    · intro hskip
      simp only [List.cons_append, collectContent]
      split
      · rfl
      · split
        · rfl
        · split
          · exact (ih seen).2 hskip
          · exact congrArg _ ((ih _).2 hskip)

/-- Witness for C3: a stopping `h2` sibling and a skipped wrapper
sibling, at level 2. -/
theorem claim_c3_witness :
    collectContent 2 [] ([] ++ (Node.elem "h2" [] [.text "X"]) ::
        [Node.elem "p" [] [.text "zap"]])
      = collectContent 2 [] ([] ++ [Node.elem "h2" [] [.text "X"]])
    ∧ collectContent 2 [] ([] ++ (Node.elem "div" [("class", "mw-heading")]
          [.elem "h4" [] []]) :: [Node.elem "p" [] [.text "zap"]])
      = collectContent 2 [] ([] ++ [Node.elem "p" [] [.text "zap"]]) :=
  ⟨(claim_c3 2 [] [] (Node.elem "h2" [] [.text "X"])
      [Node.elem "p" [] [.text "zap"]]).1 (by decide),
   (claim_c3 2 [] [] (Node.elem "div" [("class", "mw-heading")]
      [.elem "h4" [] []]) [Node.elem "p" [] [.text "zap"]]).2 (by decide)⟩

/-- The fragment loop of `collectContentAfterHeading` is first-occurrence
deduplication of the trimmed non-empty fragments. -/
theorem pushFrags_eq (fs : List String) : ∀ seen,
    pushFrags seen fs
      = (firstDedup seen (trimmedFrags fs), seenAfter seen (trimmedFrags fs)) := by
  induction fs with
  | nil => intro seen; rfl
  | cons f fs ih =>
    intro seen
    by_cases ht : strTrim f = ""
    · simpa [pushFrags, trimmedFrags, ht] using ih seen
    · by_cases hs : strTrim f ∈ seen
      · simp only [pushFrags, trimmedFrags, List.map_cons, List.filter_cons]
        rw [if_neg (by simp [ht, hs]), if_pos (by simpa using ht)]
        simp only [firstDedup, seenAfter, if_pos hs]
        simpa [trimmedFrags] using ih seen
      · simp only [pushFrags, trimmedFrags, List.map_cons, List.filter_cons]
        rw [if_pos ⟨ht, hs⟩, if_pos (by simpa using ht)]
        simp only [firstDedup, seenAfter, if_neg hs]
        rw [show (pushFrags (strTrim f :: seen) fs).1
              = firstDedup (strTrim f :: seen) (trimmedFrags fs) from
            congrArg Prod.fst (ih _),
          show (pushFrags (strTrim f :: seen) fs).2
              = seenAfter (strTrim f :: seen) (trimmedFrags fs) from
            congrArg Prod.snd (ih _)]
        simp [trimmedFrags]

/-- First-occurrence deduplication splits over append. -/
theorem firstDedup_append (A : List String) : ∀ (seen : List String) (B : List String),
    firstDedup seen (A ++ B)
      = firstDedup seen A ++ firstDedup (seenAfter seen A) B := by
  induction A with
  | nil => intro seen B; rfl
  | cons a A ih =>
    intro seen B
    by_cases h : a ∈ seen
    · simp [firstDedup, seenAfter, h, ih]
    · simp [firstDedup, seenAfter, h, ih]

/-- The collected section content is exactly first-occurrence
deduplication of the raw fragment stream. -/
theorem collectContent_eq_dedup (level : Nat) (l : List Node) : ∀ seen,
    collectContent level seen l
      = firstDedup seen (sectionFragmentStream level l) := by
  induction l with
  | nil => intro seen; rfl
  | cons n rest ih =>
    intro seen
    simp only [collectContent, sectionFragmentStream]
    split
    · rfl
    · split
      · rfl
      · split
        · exact ih seen
        · rw [pushFrags_eq]
          simp only
          rw [firstDedup_append, ih]

/-- First-occurrence deduplication produces no duplicates and nothing
already seen. -/
theorem firstDedup_nodup (l : List String) : ∀ seen,
    (firstDedup seen l).Nodup ∧ ∀ x ∈ firstDedup seen l, x ∉ seen := by
  induction l with
  | nil => intro seen; exact ⟨List.nodup_nil, by simp [firstDedup]⟩
  | cons a l ih =>
    intro seen
    by_cases h : a ∈ seen
    · simp only [firstDedup, if_pos h]
      exact ih seen
    · simp only [firstDedup, if_neg h]
      obtain ⟨hnd, hni⟩ := ih (a :: seen)
      refine ⟨List.nodup_cons.mpr ⟨fun hc => (hni a hc) (by simp), hnd⟩, ?_⟩
      intro x hx
      rcases List.mem_cons.mp hx with rfl | hx
      · exact h
      · exact fun hxs => (hni x hx) (by simp [hxs])

/-- First-occurrence deduplication preserves order: the result is a
sublist of the input. -/
theorem firstDedup_sublist (l : List String) : ∀ seen,
    List.Sublist (firstDedup seen l) l := by
  induction l with
  | nil => intro seen; simp [firstDedup]
  | cons a l ih =>
    intro seen
    by_cases h : a ∈ seen
    · simp only [firstDedup, if_pos h]
      exact (ih seen).cons a
    · simp only [firstDedup, if_neg h]
      exact (ih (a :: seen)).cons₂ a

/-- C8: within one heading the stored content is the raw fragment stream
deduplicated by exact match keeping first occurrences, hence contains no
two equal strings and is a sublist (document order preserved) of the
stream. -/
theorem claim_c8 (level : Nat) (sibs : List Node) :
    collectContent level [] sibs
      = firstDedup [] (sectionFragmentStream level sibs)
    ∧ (collectContent level [] sibs).Nodup
    ∧ List.Sublist (collectContent level [] sibs) (sectionFragmentStream level sibs) := by
  have he := collectContent_eq_dedup level sibs []
  refine ⟨he, ?_, ?_⟩
  · rw [he]; exact (firstDedup_nodup _ []).1
  · rw [he]; exact firstDedup_sublist _ []

/-- The push-loop over cells is map-then-filter. -/
theorem cellsFoldlAux (l : List Node) : ∀ acc,
    l.foldl (fun cs cell =>
        let s := cleanText (textOf cell)
        if s ≠ "" then cs ++ [s] else cs) acc
      = acc ++ (l.map (fun c => cleanText (textOf c))).filter (· ≠ "") := by
  induction l with
  | nil => intro acc; simp
  | cons c l ih =>
    intro acc
    rw [List.foldl_cons]
    by_cases h : cleanText (textOf c) = ""
    · have hstep : (let s := cleanText (textOf c)
          if s ≠ "" then acc ++ [s] else acc) = acc := by
        simp [h]
      rw [hstep, ih, List.map_cons, List.filter_cons]
      simp [h]
    · have hstep : (let s := cleanText (textOf c)
          if s ≠ "" then acc ++ [s] else acc)
            = acc ++ [cleanText (textOf c)] := by
        simp [h]
      rw [hstep, ih, List.map_cons, List.filter_cons]
      simp [h]

/-- The push-loop over rows is a `filterMap`, for any cell extractor. -/
theorem rowsFoldlAux (cellsF : Node → List String) (l : List Node) : ∀ acc,
    l.foldl (fun rows tr =>
        let cells := cellsF tr
        if cells.length > 0 then rows ++ [String.intercalate " | " cells]
        else rows) acc
      = acc ++ l.filterMap (fun tr =>
          let cells := cellsF tr
          if cells = [] then none
          else some (String.intercalate " | " cells)) := by
  induction l with
  | nil => intro acc; simp
  | cons tr l ih =>
    intro acc
    cases hc : cellsF tr with
    | nil => simp [List.foldl_cons, hc, ih]
    | cons c cs => simp [List.foldl_cons, hc, ih]

/-- The `extractTableContent` equals the spec-side row fragments joined by
newlines. -/
theorem extractTableContent_eq (n : Node) :
    extractTableContent n = String.intercalate "\n" (rowFragments n) := by
  rw [extractTableContent, rowFragments]
  rw [rowsFoldlAux]
  simp only [cellsFoldlAux, List.nil_append]

/-- The `String.intercalate.go` only appends to its accumulator. -/
theorem intercalate_go_pre (as : List String) : ∀ acc s : String,
    ∃ t, String.intercalate.go acc s as = acc ++ t := by
  induction as with
  | nil => intro acc s; exact ⟨"", by simp [String.intercalate.go]⟩
  | cons a as ih =>
    intro acc s
    obtain ⟨t, ht⟩ := ih (acc ++ s ++ a) s
    refine ⟨s ++ a ++ t, ?_⟩
    show String.intercalate.go (acc ++ s ++ a) s as = _
    rw [ht]
    simp [String.append_assoc]

/-- Joining a list headed by a non-empty string is non-empty. -/
theorem intercalate_cons_ne (a : String) (as : List String) (s : String)
    (ha : a ≠ "") : String.intercalate s (a :: as) ≠ "" := by
  show String.intercalate.go a s as ≠ ""
  obtain ⟨t, ht⟩ := intercalate_go_pre as a s
  rw [ht]
  intro hcontra
  apply ha
  have : (a ++ t).length = 0 := by rw [hcontra]; rfl
  rw [String.length_append] at this
  have ha0 : a.length = 0 := by omega
  cases a with
  | mk data =>
    cases data with
    | nil => rfl
    | cons c cs => simp [String.length] at ha0

/-- Every row fragment is non-empty (its first cell is non-empty). -/
theorem rowFragments_ne (n : Node) : ∀ x ∈ rowFragments n, x ≠ "" := by
  intro x hx
  simp only [rowFragments, List.mem_filterMap] at hx
  obtain ⟨tr, -, hf⟩ := hx
  cases hc : ((findAll (fun m => tagOf m = "th" || tagOf m = "td") tr).map
      (fun c => cleanText (textOf c))).filter (· ≠ "") with
  | nil => rw [hc] at hf; simp at hf
  | cons c cs =>
    rw [hc] at hf
    rw [if_neg (by simp : ¬(c :: cs = []))] at hf
    have hx' : x = String.intercalate " | " (c :: cs) :=
      (Option.some.injEq _ _).mp hf.symm
    subst hx'
    have hcmem : c ∈ ((findAll (fun m => tagOf m = "th" || tagOf m = "td") tr).map
        (fun m => cleanText (textOf m))).filter (· ≠ "") := by
      rw [hc]; exact List.mem_cons_self c cs
    have hcne : c ≠ "" := by
      have hp := (List.mem_filter.mp hcmem).2
      simpa using hp
    exact intercalate_cons_ne c cs " | " hcne

/-- C7 counterexample: a table with two qualifying rows yields a single
fragment (the rows joined by a newline), not one fragment per row. -/
theorem claim_c7_counterexample :
    rowFragments (.elem "table" []
        [.elem "tr" [] [.elem "td" [] [.text "A"], .elem "td" [] [.text "B"]],
         .elem "tr" [] [.elem "td" [] [.text "C"]]]) = ["A | B", "C"]
    ∧ extractElementContent (.elem "table" []
        [.elem "tr" [] [.elem "td" [] [.text "A"], .elem "td" [] [.text "B"]],
         .elem "tr" [] [.elem "td" [] [.text "C"]]]) = ["A | B\nC"]
    ∧ (extractElementContent (.elem "table" []
        [.elem "tr" [] [.elem "td" [] [.text "A"], .elem "td" [] [.text "B"]],
         .elem "tr" [] [.elem "td" [] [.text "C"]]])).length ≠ 2 := by
  refine ⟨by decide, by decide, by decide⟩

/-- C7 (amended): a table element yields at most a *single* fragment:
nothing when no row qualifies, else one string whose newline-separated
lines are, for each row with a non-empty cell, the row's non-empty
cleaned cells joined by `' | '`; all-empty rows are skipped. -/
theorem claim_c7 (a : List (String × String)) (cs : List Node) :
    extractElementContent (.elem "table" a cs)
      = if rowFragments (.elem "table" a cs) = [] then []
        else [String.intercalate "\n" (rowFragments (.elem "table" a cs))] := by
  have h1 : extractElementContent (.elem "table" a cs)
      = (let s := extractTableContent (.elem "table" a cs)
         if s ≠ "" then [s] else []) := by
    simp [extractElementContent, tagOf, pLikeTags]
  rw [h1]
  dsimp only
  rw [extractTableContent_eq]
  cases hr : rowFragments (.elem "table" a cs) with
  | nil => simp [String.intercalate]
  | cons r rs =>
    have hne : String.intercalate "\n" (r :: rs) ≠ "" :=
      intercalate_cons_ne r rs "\n"
        (rowFragments_ne _ r (by rw [hr]; exact List.mem_cons_self r rs))
    simp [hne]

/-- A bracket-free list is untouched by a marker scan whose matcher only
fires on `'['`. -/
theorem scrubF_id (m : List Char → Option (List Char))
    (hm : ∀ c cs, c ≠ '[' → m (c :: cs) = none) :
    ∀ (fl : Nat) (l : List Char), (∀ c ∈ l, c ≠ '[') → scrubF m fl l = l := by
  intro fl
  induction fl with
  | zero => intro l _; rfl
  | succ n ih =>
    intro l h
    cases l with
    | nil => rfl
    | cons c cs =>
      have hc : c ≠ '[' := h c (List.mem_cons_self c cs)
      simp only [scrubF, hm c cs hc]
      exact congrArg (c :: ·) (ih cs fun x hx => h x (List.mem_cons_of_mem c hx))

/-- The four matchers fire only on `'['`. -/
theorem editMatch_skip (c : Char) (cs : List Char) (h : c ≠ '[') :
    editMatch (c :: cs) = none := by simp [editMatch, h]

/-- The `citationMatch` fires only on `'['`. -/
theorem citationMatch_skip (c : Char) (cs : List Char) (h : c ≠ '[') :
    citationMatch (c :: cs) = none := by simp [citationMatch, h]

/-- The `noteMatch` fires only on `'['`. -/
theorem noteMatch_skip (c : Char) (cs : List Char) (h : c ≠ '[') :
    noteMatch (c :: cs) = none := by simp [noteMatch, h]

/-- The `refMatch` fires only on `'['`. -/
theorem refMatch_skip (c : Char) (cs : List Char) (h : c ≠ '[') :
    refMatch (c :: cs) = none := by simp [refMatch, h]

/-- Whitespace collapsing introduces only spaces. -/
theorem mem_collapseWsAux (l : List Char) : ∀ (b : Bool) (c : Char),
    c ∈ collapseWsAux b l → c = ' ' ∨ c ∈ l := by
  induction l with
  | nil => intro b c h; simp [collapseWsAux] at h
  | cons x cs ih =>
    intro b c h
    by_cases hx : isWs x = true
    · cases b with
      | true =>
        simp only [collapseWsAux, hx, if_pos] at h
        rcases ih true c h with h' | h'
        · exact Or.inl h'
        · exact Or.inr (List.mem_cons_of_mem x h')
      | false =>
        simp only [collapseWsAux, hx, if_pos] at h
        rcases List.mem_cons.mp h with rfl | h'
        · exact Or.inl rfl
        · rcases ih true c h' with h'' | h''
          · exact Or.inl h''
          · exact Or.inr (List.mem_cons_of_mem x h'')
    · simp only [collapseWsAux, hx] at h
      rcases List.mem_cons.mp h with rfl | h'
      · exact Or.inr (List.mem_cons_self _ _)
      · rcases ih false c h' with h'' | h''
        · exact Or.inl h''
        · exact Or.inr (List.mem_cons_of_mem x h'')

/-- Members of `dropWhile` are members. -/
theorem mem_dropWhileChars (p : Char → Bool) (l : List Char) (c : Char)
    (h : c ∈ List.dropWhile p l) : c ∈ l := by
  induction l with
  | nil => simpa using h
  | cons x cs ih =>
    by_cases hx : p x = true
    · simp only [List.dropWhile_cons, hx, if_pos] at h
      exact List.mem_cons_of_mem x (ih h)
    · simp only [List.dropWhile_cons, hx] at h
      simpa using h

/-- Members of `trimRightChars` are members. -/
theorem mem_trimRightChars (l : List Char) (c : Char)
    (h : c ∈ trimRightChars l) : c ∈ l := by
  induction l with
  | nil => simpa [trimRightChars] using h
  | cons x cs ih =>
    simp only [trimRightChars] at h
    split at h
    · simp at h
    · rcases List.mem_cons.mp h with rfl | h'
      · exact List.mem_cons_self _ _
      · exact List.mem_cons_of_mem x (ih h')

/-- Members of `trimChars` are members. -/
theorem mem_trimChars (l : List Char) (c : Char)
    (h : c ∈ trimChars l) : c ∈ l :=
  mem_dropWhileChars _ l c (mem_trimRightChars _ c h)

/-- On bracket-free input, `cleanChars` is collapse-then-trim. -/
theorem cleanChars_noBracket (l : List Char) (h : ∀ c ∈ l, c ≠ '[') :
    cleanChars l = trimChars (collapseWsAux false l) := by
  have hX : ∀ c ∈ collapseWsAux false l, c ≠ '[' := by
    intro c hc
    rcases mem_collapseWsAux l false c hc with rfl | hc'
    · decide
    · exact h c hc'
  unfold cleanChars scrub
  rw [scrubF_id editMatch editMatch_skip _ _ hX,
    scrubF_id citationMatch citationMatch_skip _ _ hX,
    scrubF_id noteMatch noteMatch_skip _ _ hX,
    scrubF_id refMatch refMatch_skip _ _ hX]

/-- Collapsing produces tidy output. -/
theorem collapse_tidy (l : List Char) : ∀ b, tidyB b (collapseWsAux b l) = true := by
  induction l with
  | nil => intro b; rfl
  | cons c cs ih =>
    intro b
    by_cases hc : isWs c = true
    · cases b with
      | true => simpa [collapseWsAux, hc] using ih true
      | false =>
        simp only [collapseWsAux, hc, if_pos, Bool.false_eq_true]
        simpa [tidyB] using ih true
    · simp only [collapseWsAux, hc]
      simpa [tidyB, hc] using ih false

/-- Collapsing is the identity on tidy input. -/
theorem collapse_of_tidy (l : List Char) : ∀ b, tidyB b l = true →
    collapseWsAux b l = l := by
  induction l with
  | nil => intro b _; rfl
  | cons c cs ih =>
    intro b h
    by_cases hc : isWs c = true
    · simp only [tidyB, hc, if_pos, Bool.and_eq_true, Bool.not_eq_true'] at h
      obtain ⟨⟨hsp, hb⟩, ht⟩ := h
      subst hb
      have hsp' : c = ' ' := by simpa using hsp
      subst hsp'
      simp only [collapseWsAux, hc, if_pos, Bool.false_eq_true, if_false]
      exact congrArg (' ' :: ·) (ih true ht)
    · simp only [tidyB, hc] at h
      simp only [collapseWsAux, hc]
      exact congrArg (c :: ·) (ih false h)

/-- Dropping leading whitespace preserves tidiness (with any flag). -/
theorem tidy_dropWhile (l : List Char) : ∀ b b', tidyB b l = true →
    tidyB b' (List.dropWhile (fun c => isWs c) l) = true := by
  induction l with
  | nil => intro b b' _; rfl
  | cons c cs ih =>
    intro b b' h
    by_cases hc : isWs c = true
    · simp only [tidyB, hc, if_pos, Bool.and_eq_true] at h
      simp only [List.dropWhile_cons, hc, if_pos]
      exact ih true b' h.2
    · simp only [tidyB, hc] at h
      simp only [List.dropWhile_cons, hc]
      simpa [tidyB, hc] using h

/-- Trimming trailing whitespace preserves tidiness. -/
theorem tidy_trimRight (l : List Char) : ∀ b, tidyB b l = true →
    tidyB b (trimRightChars l) = true := by
  induction l with
  | nil => intro b _; rfl
  | cons c cs ih =>
    intro b h
    simp only [trimRightChars]
    split
    · rfl
    · by_cases hc : isWs c = true
      · simp only [tidyB, hc, if_pos, Bool.and_eq_true] at h
        simp only [tidyB, hc, if_pos, Bool.and_eq_true]
        exact ⟨h.1, ih true h.2⟩
      · simp only [tidyB, hc] at h
        simp only [tidyB, hc]
        exact ih false h

/-- The `dropWhile` is idempotent. -/
theorem dropWhile_idem (p : Char → Bool) (l : List Char) :
    List.dropWhile p (List.dropWhile p l) = List.dropWhile p l := by
  induction l with
  | nil => rfl
  | cons c cs ih =>
    by_cases hc : p c = true
    · simp only [List.dropWhile_cons, hc, if_pos]
      exact ih
    · simp only [List.dropWhile_cons, hc]
      simp [List.dropWhile_cons, hc]

/-- The `trimRightChars` is idempotent. -/
theorem trimRight_idem (l : List Char) :
    trimRightChars (trimRightChars l) = trimRightChars l := by
  induction l with
  | nil => rfl
  | cons c cs ih =>
    simp only [trimRightChars]
    split
    · rfl
    · next hcond =>
      simp only [trimRightChars, ih]
      split
      · next hcond2 =>
        exfalso
        apply hcond
        simp only [Bool.and_eq_true, decide_eq_true_eq] at hcond2 ⊢
        obtain ⟨h1, h2⟩ := hcond2
        refine ⟨?_, h2⟩
        by_contra hne
        cases hr : trimRightChars cs with
        | nil => exact absurd hr (by simpa [hr] using hne)
        | cons y ys => rw [hr] at h1; simp at h1
      · rfl

/-- Leading and trailing trims commute on trimmed input. -/
theorem dropWhile_trimRight (l : List Char)
    (h : List.dropWhile (fun c => isWs c) l = l) :
    List.dropWhile (fun c => isWs c) (trimRightChars l) = trimRightChars l := by
  cases l with
  | nil => rfl
  | cons c cs =>
    have hc : isWs c = false := by
      have h0 := (List.dropWhile_eq_self_iff.mp h) (by simp)
      simpa using h0
    simp only [trimRightChars]
    split
    · rfl
    · simp [List.dropWhile_cons, hc]

/-- The `trimChars` is idempotent. -/
theorem trimChars_idem (l : List Char) :
    trimChars (trimChars l) = trimChars l := by
  unfold trimChars trimLeftChars
  rw [dropWhile_trimRight _ (dropWhile_idem _ l), trimRight_idem]

/-- C2 counterexample: removing the reference marker `[1]` leaves a
double space that a second pass collapses, so the cleaner is not
idempotent. -/
theorem claim_c2_counterexample :
    cleanText (cleanText "a [1] b") ≠ cleanText "a [1] b" := by decide

/-- C2 (amended): the text cleaner is idempotent on every string that
contains no `'['` — the failures are exactly the bracketed-marker
removals, which can create new markers or new whitespace runs. -/
theorem claim_c2 (s : String) (h : ∀ c ∈ s.data, c ≠ '[') :
    cleanText (cleanText s) = cleanText s := by
  show String.mk (cleanChars (String.data ⟨cleanChars s.data⟩))
      = String.mk (cleanChars s.data)
  apply congrArg String.mk
  show cleanChars (cleanChars s.data) = cleanChars s.data
  have h1 : cleanChars s.data = trimChars (collapseWsAux false s.data) :=
    cleanChars_noBracket s.data h
  have hX : ∀ c ∈ cleanChars s.data, c ≠ '[' := by
    intro c hc
    rw [h1] at hc
    rcases mem_collapseWsAux s.data false c (mem_trimChars _ c hc) with rfl | hc'
    · decide
    · exact h c hc'
  rw [cleanChars_noBracket _ hX, h1]
  have h4 : tidyB false (trimChars (collapseWsAux false s.data)) = true := by
    unfold trimChars trimLeftChars
    exact tidy_trimRight _ false
      (tidy_dropWhile _ false false (collapse_tidy s.data false))
  rw [collapse_of_tidy _ false h4, trimChars_idem]

/-- Witness for C2 at a bracket-free string. -/
theorem claim_c2_witness :
    cleanText (cleanText "ab cd") = cleanText "ab cd" :=
  claim_c2 "ab cd" (by decide)

/-- Heading invariants at the container level. -/
theorem extractHeadings_ok (c : Node) :
    ∀ h ∈ extractHeadingsWithContent c,
      h.level ∈ ([1, 2, 3, 4] : List Nat) ∧ h.text ≠ "" := by
  intro h hmem
  cases c with
  | text s => simp [extractHeadingsWithContent] at hmem
  | elem t a cs =>
    exact hwcSibs_ok (classOfAttrs a) [] cs h hmem

/-- C4: every heading of the final output has level in {1,2,3,4} and
non-empty (cleaned) text. -/
theorem claim_c4 (url extractedAt : String) (doc : Node) :
    ∀ h ∈ (extractContent url extractedAt doc).headings,
      h.level ∈ ([1, 2, 3, 4] : List Nat) ∧ h.text ≠ "" := by
  intro h hmem
  exact extractHeadings_ok _ h hmem

/-- Witness for C4 at a concrete two-element document. -/
theorem claim_c4_witness :
    (⟨2, "Title here", ["Body text."]⟩ : HeadingWithContent).level
        ∈ ([1, 2, 3, 4] : List Nat)
    ∧ (⟨2, "Title here", ["Body text."]⟩ : HeadingWithContent).text ≠ "" :=
  claim_c4 "u" "t"
    (.elem "html" [] [.elem "body" []
      [.elem "h2" [] [.text "Title here"], .elem "p" [] [.text "Body text."]]])
    ⟨2, "Title here", ["Body text."]⟩ (by decide)

/-- C1 counterexample: on a document with an empty body the headings
sequence is empty yet no fallback content is set (every fallback
strategy produces nothing), so "fallbackContent is set iff headings is
empty" is false — the right-to-left direction fails. -/
theorem claim_c1_counterexample :
    ¬((extractContent "u" "t"
        (.elem "html" [] [.elem "body" [] []])).fallbackContent.isSome
      ↔ (extractContent "u" "t"
        (.elem "html" [] [.elem "body" [] []])).headings = []) := by
  decide

/-- C1 (amended): `fallbackContent` is set *only if* `headings` is empty;
when `headings` is empty it carries exactly the fallback extractor's
result over the selected container, which may itself be absent. -/
theorem claim_c1 (url extractedAt : String) (doc : Node) :
    ((extractContent url extractedAt doc).fallbackContent.isSome →
      (extractContent url extractedAt doc).headings = [])
    ∧ ((extractContent url extractedAt doc).headings = [] →
      (extractContent url extractedAt doc).fallbackContent
        = extractFallbackContent (findContentContainer
            ((filterNode "" doc).getD (.elem "html" [] [])))) := by
  constructor
  · intro hsome
    by_contra hne
    have : (extractContent url extractedAt doc).fallbackContent = none := by
      simp only [extractContent]
      rw [if_neg]
      intro hcontra
      exact hne hcontra
    rw [this] at hsome
    simp at hsome
  · intro hempty
    simp only [extractContent] at hempty ⊢
    rw [if_pos hempty]

/-- Witness for C1: a document whose only content is one long paragraph
has empty headings and paragraph-sourced fallback content. -/
theorem claim_c1_witness :
    (extractContent "u" "t"
      (.elem "html" [] [.elem "body" []
        [.elem "p" [] [.text "This paragraph is certainly longer than thirty characters."]]])).headings
      = [] :=
  (claim_c1 "u" "t"
    (.elem "html" [] [.elem "body" []
      [.elem "p" [] [.text "This paragraph is certainly longer than thirty characters."]]])).1
    (by decide)

/-- The first-encountered maximum is one of the candidates. -/
theorem pickBestCandidate_mem (cs : List (Node × Q)) : ∀ c : Node × Q,
    pickBestCandidate c cs = c ∨ pickBestCandidate c cs ∈ cs := by
  induction cs with
  | nil => intro c; exact Or.inl rfl
  | cons x xs ih =>
    intro c
    simp only [pickBestCandidate, List.foldl_cons]
    rcases ih (if Q.blt c.2 x.2 then x else c) with h | h
    · rw [show pickBestCandidate (if Q.blt c.2 x.2 then x else c) xs
          = List.foldl (fun best x => if Q.blt best.2 x.2 then x else best)
              (if Q.blt c.2 x.2 then x else c) xs from rfl] at h
      rw [h]
      split
      · exact Or.inr (List.mem_cons_self x xs)
      · exact Or.inl rfl
    · rw [show pickBestCandidate (if Q.blt c.2 x.2 then x else c) xs
          = List.foldl (fun best x => if Q.blt best.2 x.2 then x else best)
              (if Q.blt c.2 x.2 then x else c) xs from rfl] at h
      exact Or.inr (List.mem_cons_of_mem x h)

/-- C9: only `div`/`section`/`article`/`main` elements with at least 200
characters of normalized text and link density at most `1/2` enter the
Phase-B candidate list, and the chosen container is either the body
default or one of those candidates — an element failing the guards can
never be chosen through Phase-B scoring. -/
theorem claim_c9 (doc : Node) :
    (∀ el q, (el, q) ∈ candidateList doc →
      containerCandidateTags.contains (tagOf el) = true
      ∧ 200 ≤ getTextLength el
      ∧ Q.blt ⟨1, 2⟩ (calculateLinkDensity el) = false)
    ∧ (findHighestTextDensityElement doc = bodyElement doc
      ∨ ∃ q, (findHighestTextDensityElement doc, q) ∈ candidateList doc) := by
  constructor
  · intro el q hmem
    simp only [candidateList, List.mem_filterMap] at hmem
    obtain ⟨p, -, hp⟩ := hmem
    by_cases h1 : containerCandidateTags.contains (tagOf p.1) = true
    · rw [if_pos h1] at hp
      by_cases h2 : getTextLength p.1 < 200
      · rw [if_pos h2] at hp; simp at hp
      · rw [if_neg h2] at hp
        by_cases h3 : Q.blt ⟨1, 2⟩ (calculateLinkDensity p.1) = true
        · rw [if_pos h3] at hp; simp at hp
        · rw [if_neg h3] at hp
          by_cases h4 : (innerHtml p.1).length = 0
          · rw [if_pos h4] at hp; simp at hp
          · rw [if_neg h4] at hp
            have hel : p.1 = el := congrArg Prod.fst (Option.some.injEq _ _ |>.mp hp)
            subst hel
            exact ⟨h1, Nat.le_of_not_lt h2, Bool.eq_false_iff.mpr h3⟩
    · rw [if_neg h1] at hp; simp at hp
  · cases hc : candidateList doc with
    | nil =>
      left
      simp [findHighestTextDensityElement, hc]
    | cons c cs =>
      have hunfold : findHighestTextDensityElement doc
          = (if Q.blt ⟨0, 1⟩ (pickBestCandidate c cs).2
             then (pickBestCandidate c cs).1 else bodyElement doc) := by
        simp [findHighestTextDensityElement, hc]
      rw [hunfold]
      split
      · refine Or.inr ⟨(pickBestCandidate c cs).2, ?_⟩
        rw [Prod.mk.eta]
        rcases pickBestCandidate_mem cs c with h | h
        · rw [h]; exact List.mem_cons_self c cs
        · exact List.mem_cons_of_mem c h
      · exact Or.inl rfl

/-- Witness for C9: a document whose body holds one long link-free
`div`; the div is the unique Phase-B candidate. -/
theorem claim_c9_witness :
    containerCandidateTags.contains (tagOf (.elem "div" []
      [.text "Lorem ipsum dolor sit amet, consectetur adipiscing elit, sed do eiusmod tempor incididunt ut labore et dolore magna aliqua. Ut enim ad minim veniam, quis nostrud exercitation ullamco laboris nisi ut aliquip."])) = true
    ∧ 200 ≤ getTextLength (.elem "div" []
      [.text "Lorem ipsum dolor sit amet, consectetur adipiscing elit, sed do eiusmod tempor incididunt ut labore et dolore magna aliqua. Ut enim ad minim veniam, quis nostrud exercitation ullamco laboris nisi ut aliquip."])
    ∧ Q.blt ⟨1, 2⟩ (calculateLinkDensity (.elem "div" []
      [.text "Lorem ipsum dolor sit amet, consectetur adipiscing elit, sed do eiusmod tempor incididunt ut labore et dolore magna aliqua. Ut enim ad minim veniam, quis nostrud exercitation ullamco laboris nisi ut aliquip."])) = false :=
  (claim_c9 (.elem "html" [] [.elem "body" [] [.elem "div" []
      [.text "Lorem ipsum dolor sit amet, consectetur adipiscing elit, sed do eiusmod tempor incididunt ut labore et dolore magna aliqua. Ut enim ad minim veniam, quis nostrud exercitation ullamco laboris nisi ut aliquip."]]])).1
    (.elem "div" []
      [.text "Lorem ipsum dolor sit amet, consectetur adipiscing elit, sed do eiusmod tempor incididunt ut labore et dolore magna aliqua. Ut enim ad minim veniam, quis nostrud exercitation ullamco laboris nisi ut aliquip."])
    ⟨6381396000, 11385000000⟩
    (by
      rw [show candidateList (.elem "html" [] [.elem "body" [] [.elem "div" []
          [.text "Lorem ipsum dolor sit amet, consectetur adipiscing elit, sed do eiusmod tempor incididunt ut labore et dolore magna aliqua. Ut enim ad minim veniam, quis nostrud exercitation ullamco laboris nisi ut aliquip."]]])
        = [((.elem "div" []
            [.text "Lorem ipsum dolor sit amet, consectetur adipiscing elit, sed do eiusmod tempor incididunt ut labore et dolore magna aliqua. Ut enim ad minim veniam, quis nostrud exercitation ullamco laboris nisi ut aliquip."]),
           ⟨6381396000, 11385000000⟩)] from rfl]
      exact List.mem_singleton.mpr rfl)

end Extractor
